import Mathlib

/-!
Verification of the Animation-Scripts repository against its specification.

Python float arithmetic is modelled as exact rational arithmetic (ℚ).
The float power operator and math.log have no rational counterpart, so the
functions take them as abstract parameters (qpow, qlog); theorems that need
facts about them state those facts as hypotheses.
-/

namespace AnimScripts

/-! ## Layout planner: scale factors
Embeds the scale-factor computation of generate_stats_models
(src/blender_data_viz_pipeline/Stats_Generator.py, lines 583-624).
A record is a (Category, DataValue) pair. -/

/-- min(data_values) of Stats_Generator.py line 584; 0 for the empty list
(the caller rejects empty data before reaching that line). -/
def minData (records : List (String × ℚ)) : ℚ :=
  match records with
  | [] => 0
  | r :: rs => ((r :: rs).map Prod.snd).foldl min r.2

/-- max(data_values) of Stats_Generator.py line 585; 0 for the empty list. -/
def maxData (records : List (String × ℚ)) : ℚ :=
  match records with
  | [] => 0
  | r :: rs => ((r :: rs).map Prod.snd).foldl max r.2

/-- Per-record scale factor, Stats_Generator.py lines 593-613.
qpow embeds the Python float operator a ** b, qlog embeds math.log. -/
def scaleFactorOf (qpow : ℚ → ℚ → ℚ) (qlog : ℚ → ℚ)
    (useLinear : Bool) (minScale maxScale power minD maxD value : ℚ) : ℚ :=
  if maxD > minD then
    if useLinear then
      minScale + qpow ((value - minD) / (maxD - minD)) power * (maxScale - minScale)
    else
      let eps : ℚ := 1 / 1000000000
      let logMin := if minD > 0 then qlog (minD + eps) else qlog eps
      let logMax := if maxD > 0 then qlog (maxD + eps) else qlog eps
      let logVal := if value > 0 then qlog (value + eps) else qlog eps
      let logRange := logMax - logMin
      if logRange > eps then
        minScale + qpow ((logVal - logMin) / logRange) power * (maxScale - minScale)
      else
        minScale
  else
    minScale

/-- The scale factors produced for a record set, Stats_Generator.py lines
583-624 (the width probe of line 615 queries host geometry and is outside
this model; only the scale_factor field is computed here). -/
def computeScaleFactors (qpow : ℚ → ℚ → ℚ) (qlog : ℚ → ℚ) (useLinear : Bool)
    (minScale maxScale power : ℚ) (records : List (String × ℚ)) :
    List (String × ℚ) :=
  records.map fun p =>
    (p.1, scaleFactorOf qpow qlog useLinear minScale maxScale power
      (minData records) (maxData records) p.2)

/-! ## Layout planner: placement
Embeds the per-item X bookkeeping of the loop in _process_models_batch
(src/blender_data_viz_pipeline/Stats_Generator.py, lines 266-324): the
batch scheduler runs this loop in chunks, but the per-item update of
current_x_position_for_next_model does not depend on the chunking, so it
is modelled as one recursion over the item widths.
Each returned pair is (running offset when the item is placed, center X). -/
def placeLoop (gapFactor minClear : ℚ) : List ℚ → ℚ → List (ℚ × ℚ)
  | [], _ => []
  | w :: rest, x =>
    let propGap : ℚ :=
      match rest with
      | [] => 0
      | w2 :: _ => (w / 2 + w2 / 2) * gapFactor
    (x, x + w / 2) :: placeLoop gapFactor minClear rest (x + w + max minClear propGap)

/-! ## Batch scheduler
Embeds the scheduling skeleton of _process_models_batch
(src/blender_data_viz_pipeline/Stats_Generator.py, lines 240-338):
index bookkeeping (lines 255-258), the missing-source failure path
(lines 260-264), re-registration (lines 329-331) and the completion path
(lines 332-338). batchSize models the module constant BATCH_SIZE. -/

structure SchedState where
  numItems : Nat
  currentIndex : Nat
  sourceOk : Bool
  timerActive : Bool
  cleanupRuns : Nat
  callbackRuns : Nat
  cleared : Bool
  deriving Repr, DecidableEq

/-- One timer tick of _process_models_batch; returns the new state and the
number of items processed by this tick. -/
def tick (batchSize : Nat) (s : SchedState) : SchedState × Nat :=
  let batchStart := s.currentIndex
  let batchEnd := min (s.currentIndex + batchSize) s.numItems
  let s1 := { s with currentIndex := batchEnd }
  if s.sourceOk then
    let processed := batchEnd - batchStart
    if batchEnd < s.numItems then
      ({ s1 with timerActive := true }, processed)
    else
      ({ s1 with timerActive := false, callbackRuns := s1.callbackRuns + 1,
                 cleared := true }, processed)
  else
    ({ s1 with timerActive := false, cleanupRuns := s1.cleanupRuns + 1 }, 0)

/-- Drives tick while the timer is registered (fuel bounds the number of
host timer callbacks).  The trace records, per tick, the number of items
processed and whether the completion callback fired during that tick. -/
def runSched (batchSize : Nat) : Nat → SchedState → List (Nat × Bool) × SchedState
  | 0, s => ([], s)
  | fuel + 1, s =>
    if s.timerActive then
      let (s2, p) := tick batchSize s
      let fired := decide (s.callbackRuns < s2.callbackRuns)
      let (tr, sf) := runSched batchSize fuel s2
      ((p, fired) :: tr, sf)
    else
      ([], s)

/-- Initial scheduler state set up by generate_stats_models lines 640-644. -/
def initSched (numItems : Nat) (sourceOk : Bool) : SchedState :=
  { numItems := numItems, currentIndex := 0, sourceOk := sourceOk,
    timerActive := true, cleanupRuns := 0, callbackRuns := 0, cleared := false }

/-! ## Hierarchy duplicator
Embeds duplicate_object_with_hierarchy
(src/Blender_Background_Generator.py, lines 185-224).
A HierarchyNode has a name, optional geometry data (obj.data, referenced by
an id into a data-block store), an inverse-parent matrix (abstracted to an
Int payload) and child nodes.  obj.copy()/data.copy() allocates a fresh
data-block id holding the same stored geometry value. -/

mutual
inductive HNode where
  | node (name : String) (dataId : Option Nat) (minv : Int) (children : HForest)
  deriving DecidableEq
inductive HForest where
  | nil
  | cons (head : HNode) (tail : HForest)
  deriving DecidableEq
end

mutual
def namesN : HNode → List String
  | .node nm _ _ ch => nm :: namesF ch
def namesF : HForest → List String
  | .nil => []
  | .cons t f => namesN t ++ namesF f
end

mutual
def dataIdsN : HNode → List Nat
  | .node _ d _ ch =>
    match d with
    | none => dataIdsF ch
    | some i => i :: dataIdsF ch
def dataIdsF : HForest → List Nat
  | .nil => []
  | .cons t f => dataIdsN t ++ dataIdsF f
end

/-! The shape of a hierarchy: child structure plus the inverse-parent
matrix payload, with names and data identity erased. -/
mutual
inductive Skel where
  | node (minv : Int) (children : SkelForest)
  deriving DecidableEq
inductive SkelForest where
  | nil
  | cons (head : Skel) (tail : SkelForest)
  deriving DecidableEq
end

mutual
def skelN : HNode → Skel
  | .node _ _ mv ch => .node mv (skelF ch)
def skelF : HForest → SkelForest
  | .nil => .nil
  | .cons t f => .cons (skelN t) (skelF f)
end

/-! Embeds _duplicate_recursive (Blender_Background_Generator.py lines
199-222) on a proper tree: copies the node, copies its data into a freshly
allocated data block with the same geometry value, renames with the
prefix, then recurses over the children, re-parenting each duplicate
child and copying its matrix_parent_inverse (carried here as the minv
field of the node itself).  State is (data store, next fresh id). -/
mutual
def dupNode (pfx : String) (heap : Nat → Int) (ctr : Nat) : HNode → HNode × (Nat → Int) × Nat
  | .node nm d mv ch =>
    match d with
    | none =>
      let r := dupForest pfx heap ctr ch
      (.node (pfx ++ "_" ++ nm) none mv r.1, r.2)
    | some i =>
      let h1 := Function.update heap ctr (heap i)
      let r := dupForest pfx h1 (ctr + 1) ch
      (.node (pfx ++ "_" ++ nm) (some ctr) mv r.1, r.2)
def dupForest (pfx : String) (heap : Nat → Int) (ctr : Nat) : HForest → HForest × (Nat → Int) × Nat
  | .nil => (.nil, heap, ctr)
  | .cons t f =>
    let r1 := dupNode pfx heap ctr t
    let r2 := dupForest pfx r1.2.1 r1.2.2 f
    (.cons r1.1 r2.1, r2.2)
end

/-! ## Hierarchy duplicator on graphs with shared subtrees
_duplicate_recursive records every visited node in parent_map but never
consults it before recursing, so on a graph where a node is reachable
through several parents the recursion revisits it once per incoming path.
The graph is given by its node ids and a children map; fuel bounds the
recursion depth (the Python recursion is unbounded).  dupVisits returns
the list of original node ids in the order the code copies them, or none
if the depth budget is exhausted. -/

def dupChList (f : Nat → Option (List Nat)) : List Nat → Option (List Nat)
  | [] => some []
  | c :: cs =>
    match f c, dupChList f cs with
    | some a, some b => some (a ++ b)
    | _, _ => none

def dupVisits (ch : Nat → List Nat) : Nat → Nat → Option (List Nat)
  | 0, _ => none
  | fuel + 1, v =>
    match dupChList (dupVisits ch fuel) (ch v) with
    | some l => some (v :: l)
    | none => none

/-- Number of distinct paths of length < fuel from v to t along the
children map. -/
def pathsCount (ch : Nat → List Nat) : Nat → Nat → Nat → Nat
  | 0, _, _ => 0
  | fuel + 1, v, t =>
    (if v = t then 1 else 0) + ((ch v).map fun c => pathsCount ch fuel c t).sum

/-- A diamond-shaped graph: node 0 has children 1 and 2, both of which
share child 3. -/
def diamondCh : Nat → List Nat := fun v =>
  if v = 0 then [1, 2] else if v = 1 then [3] else if v = 2 then [3] else []

/-! ## Collection linker
Embeds link_object_and_hierarchy_to_collection
(src/Blender_Background_Generator.py, lines 51-72).  An object's
collection memberships (users_collection) are a finite set of collection
names; the scene state maps object names to membership sets. -/

/-- The membership update applied to one object: unlink from every
collection other than the scene root collection and the target (lines
66-68), then link to the target if absent (lines 71-72). -/
def ensureExclusive (scene target : String) (s : Finset String) : Finset String :=
  let kept := s.filter fun c => c = scene ∨ c = target
  if target ∈ kept then kept else insert target kept

/-- link_object_and_hierarchy_to_collection: collect the node and all its
descendants (lines 56-61), then update each one's memberships. -/
def linkHierarchy (scene target : String) (root : HNode)
    (m : String → Finset String) : String → Finset String :=
  (namesN root).foldl (fun acc o => Function.update acc o (ensureExclusive scene target (acc o))) m

/-! ## CSV parsing for the stats generator
Embeds parse_csv_data (src/blender_data_viz_pipeline/Stats_Generator.py,
lines 123-161).  A cell whose text Python float()/int() accepts is
modelled as some value; a failing conversion is none and raises. -/

structure CsvRow where
  /-- float(row.get(data_column_name, 0.0)): some q iff conversion succeeds. -/
  dataCell : Option ℚ
  /-- row.get(category_column_name, default). -/
  category : String
  /-- Whether the population column is present in this row. -/
  popPresent : Bool
  /-- int(row.get(population_column_name, 0)): some n iff conversion succeeds. -/
  popCell : Option Int
  /-- Whether an ID column is present in this row. -/
  idPresent : Bool
  /-- int(row.get('ID', i)): some n iff conversion succeeds. -/
  idCell : Option Int
  deriving Repr, DecidableEq

structure StatsRecord where
  id : Int
  category : String
  /-- none models the 'N/A' population placeholder. -/
  population : Option Int
  dataValue : ℚ
  deriving Repr, DecidableEq

/-- The try-block of lines 139-150 for row i: any failing conversion
raises ValueError and the row is skipped. -/
def parseRow (i : Nat) (r : CsvRow) : Option StatsRecord :=
  match r.dataCell with
  | none => none
  | some v =>
    match (if r.idPresent then r.idCell else some (Int.ofNat i)) with
    | none => none
    | some idv =>
      if r.popPresent then
        match r.popCell with
        | none => none
        | some p => some ⟨idv, r.category, some p, v⟩
      else
        some ⟨idv, r.category, none, v⟩

/-- Row loop of lines 138-152 with the running row index. -/
def parseRows (i : Nat) : List CsvRow → List StatsRecord
  | [] => []
  | r :: rs =>
    match parseRow i r with
    | some rec => rec :: parseRows (i + 1) rs
    | none => parseRows (i + 1) rs

/-- parse_csv_data: header checks (lines 129-136), row loop, then
data.sort(key=lambda x: x.DataValue) (line 153).  Python's stable sort is
modelled by mergeSort. -/
def parse_csv_data (hasDataCol hasCatCol : Bool) (rows : List CsvRow) : List StatsRecord :=
  if hasDataCol then
    if hasCatCol then
      (parseRows 0 rows).mergeSort fun a b => decide (a.dataValue ≤ b.dataValue)
    else []
  else []

/-! ## CSV reading for the graph animator
Embeds read_csv_data (src/Blender_Graph_Animator.py, lines 55-123),
which addresses columns by 1-indexed position. -/

structure Cell where
  text : String
  /-- float(text): some q iff the conversion succeeds. -/
  num : Option ℚ
  deriving Repr, DecidableEq

/-- Row loop of lines 94-111: rows with too few columns or a non-numeric
data cell are skipped, others append to both lists. -/
def readRows (data_column month_column : Nat) (rows : List (List Cell)) :
    List ℚ × List String :=
  rows.foldl
    (fun acc row =>
      if row.length ≥ max data_column month_column then
        match (row.getD (data_column - 1) ⟨"", none⟩).num with
        | some v => (acc.1 ++ [v], acc.2 ++ [(row.getD (month_column - 1) ⟨"", none⟩).text])
        | none => acc
      else acc)
    ([], [])

/-- read_csv_data: the 1-indexed bounds checks of lines 74-83 abort with
empty results before the row loop runs; otherwise the row loop runs and
number_of_data = len(month_list) (line 113). -/
def read_csv_data (header : List String) (rows : List (List Cell))
    (data_column month_column : Nat) : List ℚ × List String × Nat :=
  if 1 ≤ data_column ∧ data_column ≤ header.length then
    if 1 ≤ month_column ∧ month_column ≤ header.length then
      let r := readRows data_column month_column rows
      (r.1, r.2, r.2.length)
    else ([], [], 0)
  else ([], [], 0)

/-! ## Theorems -/

theorem foldl_min_le_init (l : List ℚ) : ∀ a : ℚ, l.foldl min a ≤ a := by
  induction l with
  | nil => intro a; simp
  | cons b l ih =>
    intro a
    calc l.foldl min (min a b) ≤ min a b := ih (min a b)
      _ ≤ a := min_le_left a b

theorem foldl_min_le_mem (l : List ℚ) : ∀ (a x : ℚ), x ∈ l → l.foldl min a ≤ x := by
  induction l with
  | nil => intro a x hx; simp at hx
  | cons b l ih =>
    intro a x hx
    rcases List.mem_cons.mp hx with rfl | hx
    · calc l.foldl min (min a x) ≤ min a x := foldl_min_le_init l (min a x)
        _ ≤ x := min_le_right a x
    · exact ih (min a b) x hx

theorem init_le_foldl_max (l : List ℚ) : ∀ a : ℚ, a ≤ l.foldl max a := by
  induction l with
  | nil => intro a; simp
  | cons b l ih =>
    intro a
    calc a ≤ max a b := le_max_left a b
      _ ≤ l.foldl max (max a b) := ih (max a b)

theorem mem_le_foldl_max (l : List ℚ) : ∀ (a x : ℚ), x ∈ l → x ≤ l.foldl max a := by
  induction l with
  | nil => intro a x hx; simp at hx
  | cons b l ih =>
    intro a x hx
    rcases List.mem_cons.mp hx with rfl | hx
    · calc x ≤ max a x := le_max_right a x
        _ ≤ l.foldl max (max a x) := init_le_foldl_max l (max a x)
    · exact ih (max a b) x hx

theorem minData_le_mem (records : List (String × ℚ)) :
    ∀ p ∈ records, minData records ≤ p.2 := by
  intro p hp
  match records with
  | r :: rs =>
    exact foldl_min_le_mem _ _ _ (List.mem_map.mpr ⟨p, hp, rfl⟩)

theorem mem_le_maxData (records : List (String × ℚ)) :
    ∀ p ∈ records, p.2 ≤ maxData records := by
  intro p hp
  match records with
  | r :: rs =>
    exact mem_le_foldl_max _ _ _ (List.mem_map.mpr ⟨p, hp, rfl⟩)

/-- C1: when the maximum magnitude equals the minimum magnitude (including
a single record), every produced scale_factor equals min_visual_scale; in
particular for records [("X",10),("Y",10),("Z",10)] with min_scale=5,
max_scale=300, power=1.5 all three scale_factors equal 5. -/
theorem c1_degenerate_scale_is_min :
    (∀ (qpow : ℚ → ℚ → ℚ) (qlog : ℚ → ℚ) (useLinear : Bool)
      (minScale maxScale power : ℚ) (records : List (String × ℚ)),
      minData records = maxData records →
      ∀ x ∈ computeScaleFactors qpow qlog useLinear minScale maxScale power records,
        x.2 = minScale) ∧
    (∀ (qpow : ℚ → ℚ → ℚ) (qlog : ℚ → ℚ),
      computeScaleFactors qpow qlog true 5 300 (3 / 2)
        [("X", 10), ("Y", 10), ("Z", 10)] = [("X", 5), ("Y", 5), ("Z", 5)]) := by
  constructor
  · intro qpow qlog useLinear minScale maxScale power records h x hx
    simp only [computeScaleFactors, List.mem_map] at hx
    obtain ⟨p, hp, rfl⟩ := hx
    simp [scaleFactorOf, h]
  · intro qpow qlog
    rfl

/-- Witness for C1 at the single record ("A", 7). -/
theorem c1_degenerate_scale_is_min_witness :
    minData [("A", 7)] = maxData [("A", 7)] ∧
    ∀ x ∈ computeScaleFactors (fun _ _ => 0) (fun _ => 0) true 5 300 (3 / 2)
      [("A", 7)], x.2 = 5 :=
  ⟨by decide,
   c1_degenerate_scale_is_min.1 (fun _ _ => 0) (fun _ => 0) true 5 300 (3 / 2)
     [("A", 7)] (by decide)⟩

/-- C4: each tick processes at most batchSize items, and a run over 7 items
with batch size 3 takes exactly 3 ticks processing 3, 3 and 1 items, with
the completion callback firing exactly once, on the third tick. -/
theorem c4_seven_items_three_ticks :
    (∀ (batchSize : Nat) (s : SchedState), (tick batchSize s).2 ≤ batchSize) ∧
    (runSched 3 10 (initSched 7 true)).1 = [(3, false), (3, false), (1, true)] ∧
    ((runSched 3 10 (initSched 7 true)).2).callbackRuns = 1 := by
  refine ⟨?_, by decide, by decide⟩
  intro batchSize s
  unfold tick
  dsimp only
  split
  · split <;> dsimp only <;> omega
  · dsimp only; omega

/-- C8 (code evidence): on the missing-source failure path the tick
unregisters the timer, runs cleanup once and processes no items, but does
NOT clear the batch context, whereas the success completion path does
clear it. -/
theorem c8_failure_path_keeps_context :
    ((tick 3 (initSched 7 false)).1.timerActive = false ∧
     (tick 3 (initSched 7 false)).1.cleanupRuns = 1 ∧
     (tick 3 (initSched 7 false)).2 = 0 ∧
     (tick 3 (initSched 7 false)).1.cleared = false) ∧
    ((runSched 3 10 (initSched 7 true)).2).cleared = true := by
  decide

/-- C10: parse_csv_data returns records sorted by non-decreasing numeric
magnitude regardless of the input row order. -/
theorem c10_parse_csv_sorted :
    ∀ (hasDataCol hasCatCol : Bool) (rows : List CsvRow),
      List.Pairwise (fun a b => a.dataValue ≤ b.dataValue)
        (parse_csv_data hasDataCol hasCatCol rows) := by
  intro hasDataCol hasCatCol rows
  cases hasDataCol with
  | false => simp [parse_csv_data]
  | true =>
    cases hasCatCol with
    | false => simp [parse_csv_data]
    | true =>
      simp only [parse_csv_data, if_true]
      have h := @List.sorted_mergeSort StatsRecord
        (fun a b : StatsRecord => decide (a.dataValue ≤ b.dataValue))
        (fun a b c hab hbc => by
          simp only [decide_eq_true_eq] at *
          exact le_trans hab hbc)
        (fun a b => by
          simp only [Bool.or_eq_true, decide_eq_true_eq]
          exact le_total a.dataValue b.dataValue)
        (parseRows 0 rows)
      exact h.imp fun hab => by simpa using hab

/-- C2: in linear mode with max_magnitude > min_magnitude, every item's
scale_factor equals min_scale + ((value - min)/(max - min))**power *
(max_scale - min_scale) and lies in [min_scale, max_scale]; in particular
records [("X",0),("Y",100)] with min_scale=5, max_scale=300, power=1 give
scale factors 5 and 300. -/
theorem c2_linear_formula_and_bounds :
    (∀ (qpow : ℚ → ℚ → ℚ) (qlog : ℚ → ℚ) (minScale maxScale power : ℚ)
      (records : List (String × ℚ)),
      minData records < maxData records →
      minScale ≤ maxScale →
      (∀ t : ℚ, 0 ≤ t → t ≤ 1 → 0 ≤ qpow t power ∧ qpow t power ≤ 1) →
      (∀ i, i < records.length →
        ((computeScaleFactors qpow qlog true minScale maxScale power records).getD
            i ("", 0)).2 =
          minScale + qpow (((records.getD i ("", 0)).2 - minData records) /
            (maxData records - minData records)) power * (maxScale - minScale)) ∧
      (∀ x ∈ computeScaleFactors qpow qlog true minScale maxScale power records,
        minScale ≤ x.2 ∧ x.2 ≤ maxScale)) ∧
    (∀ (qpow : ℚ → ℚ → ℚ) (qlog : ℚ → ℚ), qpow 0 1 = 0 → qpow 1 1 = 1 →
      computeScaleFactors qpow qlog true 5 300 1 [("X", 0), ("Y", 100)] =
        [("X", 5), ("Y", 300)]) := by
  constructor
  · intro qpow qlog minScale maxScale power records hlt hsc hpow
    constructor
    · intro i hi
      have hi2 : i < (computeScaleFactors qpow qlog true minScale maxScale power
          records).length := by
        simpa [computeScaleFactors] using hi
      rw [List.getD_eq_getElem _ _ hi2, List.getD_eq_getElem _ _ hi]
      simp only [computeScaleFactors, List.getElem_map]
      simp [scaleFactorOf, if_pos hlt]
    · intro x hx
      simp only [computeScaleFactors, List.mem_map] at hx
      obtain ⟨p, hp, rfl⟩ := hx
      have hmin := minData_le_mem records p hp
      have hmax := mem_le_maxData records p hp
      have hden : (0 : ℚ) < maxData records - minData records := by linarith
      have ht0 : (0 : ℚ) ≤ (p.2 - minData records) / (maxData records - minData records) :=
        div_nonneg (by linarith) (le_of_lt hden)
      have ht1 : (p.2 - minData records) / (maxData records - minData records) ≤ 1 :=
        (div_le_one hden).mpr (by linarith)
      obtain ⟨hq0, hq1⟩ := hpow _ ht0 ht1
      simp only [scaleFactorOf, if_pos hlt, if_true]
      constructor
      · have := mul_nonneg hq0 (by linarith : (0 : ℚ) ≤ maxScale - minScale)
        linarith
      · have := mul_le_of_le_one_left (by linarith : (0 : ℚ) ≤ maxScale - minScale) hq1
        linarith
  · intro qpow qlog h0 h1
    simp only [computeScaleFactors, minData, maxData, List.map_cons, List.map_nil,
      List.foldl_cons, List.foldl_nil, scaleFactorOf]
    norm_num [h0, h1]

/-- Witness for C2 at records [("X",0),("Y",100)], min_scale 5,
max_scale 300, power 1, with the power operator instantiated to fun t _ => t. -/
theorem c2_linear_formula_and_bounds_witness :
    (minData [("X", 0), ("Y", 100)] < maxData [("X", 0), ("Y", 100)] ∧ (5 : ℚ) ≤ 300) ∧
    (∀ x ∈ computeScaleFactors (fun t _ => t) (fun _ => 0) true 5 300 1
      [("X", 0), ("Y", 100)], 5 ≤ x.2 ∧ x.2 ≤ 300) ∧
    computeScaleFactors (fun t _ => t) (fun _ => 0) true 5 300 1
      [("X", 0), ("Y", 100)] = [("X", 5), ("Y", 300)] := by
  refine ⟨⟨by decide, by norm_num⟩, ?_, ?_⟩
  · exact (c2_linear_formula_and_bounds.1 (fun t _ => t) (fun _ => 0) 5 300 1
      [("X", 0), ("Y", 100)] (by decide) (by norm_num)
      (fun t ht0 ht1 => ⟨ht0, ht1⟩)).2
  · exact c2_linear_formula_and_bounds.2 (fun t _ => t) (fun _ => 0) rfl rfl

theorem placeLoop_length (gapFactor minClear : ℚ) :
    ∀ (ws : List ℚ) (x0 : ℚ), (placeLoop gapFactor minClear ws x0).length = ws.length := by
  intro ws
  induction ws with
  | nil => intro x0; rfl
  | cons w rest ih => intro x0; simp [placeLoop, ih]

theorem placeLoop_center (gapFactor minClear : ℚ) :
    ∀ (ws : List ℚ) (x0 : ℚ) (i : Nat), i < ws.length →
      ((placeLoop gapFactor minClear ws x0).getD i (0, 0)).2 =
        ((placeLoop gapFactor minClear ws x0).getD i (0, 0)).1 + ws.getD i 0 / 2 := by
  intro ws
  induction ws with
  | nil => intro x0 i hi; simp at hi
  | cons w rest ih =>
    intro x0 i hi
    cases i with
    | zero => simp [placeLoop]
    | succ j =>
      simp only [placeLoop, List.getD_cons_succ]
      exact ih _ j (by simpa using hi)

theorem placeLoop_offset_step (gapFactor minClear : ℚ) :
    ∀ (ws : List ℚ) (x0 : ℚ) (i : Nat), i + 1 < ws.length →
      ((placeLoop gapFactor minClear ws x0).getD (i + 1) (0, 0)).1 =
        ((placeLoop gapFactor minClear ws x0).getD i (0, 0)).1 + ws.getD i 0 +
          max minClear ((ws.getD i 0 / 2 + ws.getD (i + 1) 0 / 2) * gapFactor) := by
  intro ws
  induction ws with
  | nil => intro x0 i hi; simp at hi
  | cons w rest ih =>
    intro x0 i hi
    cases i with
    | zero =>
      match rest, hi with
      | w2 :: rest2, _ => simp [placeLoop]
    | succ j =>
      simp only [placeLoop, List.getD_cons_succ]
      exact ih _ j (by simpa using hi)

/-- C3: item i's center X is the running offset plus half its width, the
running offset advances by the width plus the gap
max(min_clearance, (w_i/2 + w_{i+1}/2) * gap_factor), every adjacent gap
is at least min_clearance, and with positive widths and nonnegative
min_clearance the centers are strictly increasing. -/
theorem c3_placement_properties :
    ∀ (gapFactor minClear : ℚ) (ws : List ℚ) (x0 : ℚ),
      (placeLoop gapFactor minClear ws x0).length = ws.length ∧
      (∀ i, i < ws.length →
        ((placeLoop gapFactor minClear ws x0).getD i (0, 0)).2 =
          ((placeLoop gapFactor minClear ws x0).getD i (0, 0)).1 + ws.getD i 0 / 2) ∧
      (∀ i, i + 1 < ws.length →
        ((placeLoop gapFactor minClear ws x0).getD (i + 1) (0, 0)).1 =
          ((placeLoop gapFactor minClear ws x0).getD i (0, 0)).1 + ws.getD i 0 +
            max minClear ((ws.getD i 0 / 2 + ws.getD (i + 1) 0 / 2) * gapFactor)) ∧
      (∀ i, i + 1 < ws.length →
        minClear ≤ ((placeLoop gapFactor minClear ws x0).getD (i + 1) (0, 0)).1 -
          (((placeLoop gapFactor minClear ws x0).getD i (0, 0)).1 + ws.getD i 0)) ∧
      ((∀ w ∈ ws, 0 < w) → 0 ≤ minClear →
        ∀ i, i + 1 < ws.length →
          ((placeLoop gapFactor minClear ws x0).getD i (0, 0)).2 <
            ((placeLoop gapFactor minClear ws x0).getD (i + 1) (0, 0)).2) := by
  intro gapFactor minClear ws x0
  refine ⟨placeLoop_length _ _ ws x0, placeLoop_center _ _ ws x0, ?_, ?_, ?_⟩
  · exact placeLoop_offset_step _ _ ws x0
  · intro i hi
    rw [placeLoop_offset_step _ _ ws x0 i hi]
    have := le_max_left minClear ((ws.getD i 0 / 2 + ws.getD (i + 1) 0 / 2) * gapFactor)
    linarith
  · intro hw hc i hi
    have hwi : 0 < ws.getD i 0 := by
      have hlt : i < ws.length := by omega
      rw [List.getD_eq_getElem _ _ hlt]
      exact hw _ (ws.getElem_mem hlt)
    have hwi1 : 0 < ws.getD (i + 1) 0 := by
      rw [List.getD_eq_getElem _ _ hi]
      exact hw _ (ws.getElem_mem hi)
    have hstep := placeLoop_offset_step gapFactor minClear ws x0 i hi
    have hci := placeLoop_center gapFactor minClear ws x0 i (by omega)
    have hci1 := placeLoop_center gapFactor minClear ws x0 (i + 1) hi
    have hgap := le_max_left minClear ((ws.getD i 0 / 2 + ws.getD (i + 1) 0 / 2) * gapFactor)
    rw [hci, hci1, hstep]
    linarith

/-- Witness for C3 at widths [1, 2, 3], gap factor 1/2, min clearance 2,
start offset 0. -/
theorem c3_placement_properties_witness :
    ((∀ w ∈ ([1, 2, 3] : List ℚ), 0 < w) ∧ (0 : ℚ) ≤ 2 ∧ (0 : Nat) + 1 < 3) ∧
    ((placeLoop (1 / 2) 2 [1, 2, 3] 0).getD 0 (0, 0)).2 <
      ((placeLoop (1 / 2) 2 [1, 2, 3] 0).getD 1 (0, 0)).2 :=
  ⟨⟨by decide, by norm_num, by omega⟩,
   (c3_placement_properties (1 / 2) 2 [1, 2, 3] 0).2.2.2.2
     (by decide) (by norm_num) 0 (by norm_num)⟩

/-- C9: a 1-indexed column index outside the header range is a hard
configuration error — read_csv_data returns empty results no matter what
data rows follow — whereas a row whose magnitude cell is non-numeric is
merely skipped and the remaining rows are processed normally. -/
theorem c9_read_csv_error_handling :
    (∀ (header : List String) (rows : List (List Cell)) (dc mc : Nat),
      ¬(1 ≤ dc ∧ dc ≤ header.length) ∨ ¬(1 ≤ mc ∧ mc ≤ header.length) →
      read_csv_data header rows dc mc = ([], [], 0)) ∧
    (∀ (header : List String) (r : List Cell) (rest : List (List Cell)) (dc mc : Nat),
      1 ≤ dc ∧ dc ≤ header.length →
      1 ≤ mc ∧ mc ≤ header.length →
      r.length ≥ max dc mc →
      (r.getD (dc - 1) ⟨"", none⟩).num = none →
      read_csv_data header (r :: rest) dc mc = read_csv_data header rest dc mc) := by
  constructor
  · intro header rows dc mc h
    rcases h with h | h
    · simp [read_csv_data, h]
    · by_cases hd : 1 ≤ dc ∧ dc ≤ header.length
      · simp [read_csv_data, hd, h]
      · simp [read_csv_data, hd]
  · intro header r rest dc mc hd hm hlen hnone
    simp only [read_csv_data, if_pos hd, if_pos hm]
    have h1 : dc ≤ r.length := le_trans (le_max_left dc mc) hlen
    have h2 : mc ≤ r.length := le_trans (le_max_right dc mc) hlen
    simp only [List.getD, List.get?_eq_getElem?] at hnone
    have hstep : readRows dc mc (r :: rest) = readRows dc mc rest := by
      simp [readRows, h1, h2, hnone]
    rw [hstep]

/-- Witness for C9: header with 2 columns, data column 5 out of range on
any rows; and with in-range columns a first row whose magnitude cell is
non-numeric is skipped. -/
theorem c9_read_csv_error_handling_witness :
    (¬(1 ≤ 5 ∧ 5 ≤ (["A", "B"] : List String).length) ∧
      read_csv_data ["A", "B"] [[⟨"1", some 1⟩, ⟨"Jan", none⟩]] 5 1 = ([], [], 0)) ∧
    ((1 ≤ 1 ∧ 1 ≤ (["A", "B"] : List String).length) ∧
      ([⟨"oops", none⟩, ⟨"Jan", none⟩] : List Cell).length ≥ max 1 2 ∧
      read_csv_data ["A", "B"]
        [[⟨"oops", none⟩, ⟨"Jan", none⟩], [⟨"3", some 3⟩, ⟨"Feb", none⟩]] 1 2 =
        read_csv_data ["A", "B"] [[⟨"3", some 3⟩, ⟨"Feb", none⟩]] 1 2) :=
  ⟨⟨by decide,
    c9_read_csv_error_handling.1 ["A", "B"] [[⟨"1", some 1⟩, ⟨"Jan", none⟩]] 5 1
      (Or.inl (by decide))⟩,
   ⟨by decide, by decide,
    c9_read_csv_error_handling.2 ["A", "B"] [⟨"oops", none⟩, ⟨"Jan", none⟩]
      [[⟨"3", some 3⟩, ⟨"Feb", none⟩]] 1 2 (by decide) (by decide) (by decide) (by decide)⟩⟩

mutual
theorem ctr_le_dupNode (pfx : String) :
    (t : HNode) → ∀ heap ctr, ctr ≤ (dupNode pfx heap ctr t).2.2
  | .node nm d mv ch => by
    intro heap ctr
    cases d with
    | none => simpa [dupNode] using ctr_le_dupForest pfx ch heap ctr
    | some i =>
      have h := ctr_le_dupForest pfx ch (Function.update heap ctr (heap i)) (ctr + 1)
      simp only [dupNode]
      omega
theorem ctr_le_dupForest (pfx : String) :
    (f : HForest) → ∀ heap ctr, ctr ≤ (dupForest pfx heap ctr f).2.2
  | .nil => by intro heap ctr; simp [dupForest]
  | .cons t f => by
    intro heap ctr
    have h1 := ctr_le_dupNode pfx t heap ctr
    have h2 := ctr_le_dupForest pfx f (dupNode pfx heap ctr t).2.1 (dupNode pfx heap ctr t).2.2
    simp only [dupForest]
    omega
end

mutual
theorem heap_pres_dupNode (pfx : String) :
    (t : HNode) → ∀ heap ctr j, j < ctr → (dupNode pfx heap ctr t).2.1 j = heap j
  | .node nm d mv ch => by
    intro heap ctr j hj
    cases d with
    | none => simpa [dupNode] using heap_pres_dupForest pfx ch heap ctr j hj
    | some i =>
      have h := heap_pres_dupForest pfx ch (Function.update heap ctr (heap i)) (ctr + 1) j
        (by omega)
      simp only [dupNode]
      rw [h, Function.update_noteq (by omega : j ≠ ctr)]
theorem heap_pres_dupForest (pfx : String) :
    (f : HForest) → ∀ heap ctr j, j < ctr → (dupForest pfx heap ctr f).2.1 j = heap j
  | .nil => by intro heap ctr j hj; simp [dupForest]
  | .cons t f => by
    intro heap ctr j hj
    have h1 := ctr_le_dupNode pfx t heap ctr
    have h2 := heap_pres_dupForest pfx f (dupNode pfx heap ctr t).2.1 (dupNode pfx heap ctr t).2.2
      j (by omega)
    have h3 := heap_pres_dupNode pfx t heap ctr j hj
    simp only [dupForest]
    rw [h2, h3]
end

mutual
theorem ids_dupNode (pfx : String) :
    (t : HNode) → ∀ heap ctr, ∀ j ∈ dataIdsN (dupNode pfx heap ctr t).1,
      ctr ≤ j ∧ j < (dupNode pfx heap ctr t).2.2
  | .node nm d mv ch => by
    intro heap ctr j hj
    cases d with
    | none =>
      simp only [dupNode, dataIdsN] at hj ⊢
      exact ids_dupForest pfx ch heap ctr j hj
    | some i =>
      simp only [dupNode, dataIdsN, List.mem_cons] at hj ⊢
      have hle := ctr_le_dupForest pfx ch (Function.update heap ctr (heap i)) (ctr + 1)
      rcases hj with rfl | hj
      · omega
      · have := ids_dupForest pfx ch (Function.update heap ctr (heap i)) (ctr + 1) j hj
        omega
theorem ids_dupForest (pfx : String) :
    (f : HForest) → ∀ heap ctr, ∀ j ∈ dataIdsF (dupForest pfx heap ctr f).1,
      ctr ≤ j ∧ j < (dupForest pfx heap ctr f).2.2
  | .nil => by intro heap ctr j hj; simp [dupForest, dataIdsF] at hj
  | .cons t f => by
    intro heap ctr j hj
    simp only [dupForest, dataIdsF, List.mem_append] at hj ⊢
    have h1 := ctr_le_dupNode pfx t heap ctr
    have h2 := ctr_le_dupForest pfx f (dupNode pfx heap ctr t).2.1 (dupNode pfx heap ctr t).2.2
    rcases hj with hj | hj
    · have := ids_dupNode pfx t heap ctr j hj
      omega
    · have := ids_dupForest pfx f (dupNode pfx heap ctr t).2.1 (dupNode pfx heap ctr t).2.2 j hj
      omega
end

mutual
theorem names_dupNode (pfx : String) :
    (t : HNode) → ∀ heap ctr, ∀ nm ∈ namesN (dupNode pfx heap ctr t).1,
      ∃ rest, nm = pfx ++ rest
  | .node n d mv ch => by
    intro heap ctr nm hm
    cases d with
    | none =>
      simp only [dupNode, namesN, List.mem_cons] at hm
      rcases hm with rfl | h
      · exact ⟨"_" ++ n, by rw [String.append_assoc]⟩
      · exact names_dupForest pfx ch heap ctr nm h
    | some i =>
      simp only [dupNode, namesN, List.mem_cons] at hm
      rcases hm with rfl | h
      · exact ⟨"_" ++ n, by rw [String.append_assoc]⟩
      · exact names_dupForest pfx ch (Function.update heap ctr (heap i)) (ctr + 1) nm h
theorem names_dupForest (pfx : String) :
    (f : HForest) → ∀ heap ctr, ∀ nm ∈ namesF (dupForest pfx heap ctr f).1,
      ∃ rest, nm = pfx ++ rest
  | .nil => by intro heap ctr nm hm; simp [dupForest, namesF] at hm
  | .cons t f => by
    intro heap ctr nm hm
    simp only [dupForest, namesF, List.mem_append] at hm
    rcases hm with h | h
    · exact names_dupNode pfx t heap ctr nm h
    · exact names_dupForest pfx f (dupNode pfx heap ctr t).2.1 (dupNode pfx heap ctr t).2.2 nm h
end

mutual
theorem skel_dupNode (pfx : String) :
    (t : HNode) → ∀ heap ctr, skelN (dupNode pfx heap ctr t).1 = skelN t
  | .node nm d mv ch => by
    intro heap ctr
    cases d with
    | none =>
      simp only [dupNode, skelN]
      rw [skel_dupForest pfx ch heap ctr]
    | some i =>
      simp only [dupNode, skelN]
      rw [skel_dupForest pfx ch (Function.update heap ctr (heap i)) (ctr + 1)]
theorem skel_dupForest (pfx : String) :
    (f : HForest) → ∀ heap ctr, skelF (dupForest pfx heap ctr f).1 = skelF f
  | .nil => by intro heap ctr; simp [dupForest, skelF]
  | .cons t f => by
    intro heap ctr
    simp only [dupForest, skelF]
    rw [skel_dupNode pfx t heap ctr,
      skel_dupForest pfx f (dupNode pfx heap ctr t).2.1 (dupNode pfx heap ctr t).2.2]
end

/-- C5: duplicating a proper tree returns a tree with the same shape at
every level and the same inverse-parent matrices on corresponding nodes,
every duplicated name starts with the prefix, every duplicated geometry
data block is freshly allocated (so mutating a duplicate's geometry never
changes the source's geometry), and the duplication itself leaves all
pre-existing geometry unchanged. -/
theorem c5_duplicate_hierarchy :
    ∀ (pfx : String) (t : HNode) (heap : Nat → Int) (ctr : Nat),
      (∀ i ∈ dataIdsN t, i < ctr) →
      skelN (dupNode pfx heap ctr t).1 = skelN t ∧
      (∀ nm ∈ namesN (dupNode pfx heap ctr t).1, ∃ rest, nm = pfx ++ rest) ∧
      (∀ j ∈ dataIdsN (dupNode pfx heap ctr t).1, ctr ≤ j) ∧
      (∀ j, j < ctr → (dupNode pfx heap ctr t).2.1 j = heap j) ∧
      (∀ (store : Nat → Int) (g : Int) (j i : Nat),
        j ∈ dataIdsN (dupNode pfx heap ctr t).1 → i ∈ dataIdsN t →
        Function.update store j g i = store i) := by
  intro pfx t heap ctr hsrc
  refine ⟨skel_dupNode pfx t heap ctr, names_dupNode pfx t heap ctr,
    fun j hj => (ids_dupNode pfx t heap ctr j hj).1,
    heap_pres_dupNode pfx t heap ctr, ?_⟩
  intro store g j i hj hi
  have h1 := (ids_dupNode pfx t heap ctr j hj).1
  have h2 := hsrc i hi
  exact Function.update_noteq (by omega : i ≠ j) g store

/-- Witness for C5 at a two-node tree whose data blocks are ids 0 and 1,
duplicated with fresh ids starting at 2. -/
theorem c5_duplicate_hierarchy_witness :
    (∀ i ∈ dataIdsN (HNode.node "A" (some 0) 7 (.cons (.node "B" (some 1) 3 .nil) .nil)),
      i < 2) ∧
    skelN (dupNode "D" (fun _ => 0) 2
        (HNode.node "A" (some 0) 7 (.cons (.node "B" (some 1) 3 .nil) .nil))).1 =
      skelN (HNode.node "A" (some 0) 7 (.cons (.node "B" (some 1) 3 .nil) .nil)) :=
  ⟨by decide,
   (c5_duplicate_hierarchy "D"
     (HNode.node "A" (some 0) 7 (.cons (.node "B" (some 1) 3 .nil) .nil))
     (fun _ => 0) 2 (by decide)).1⟩

/-- C6 (counterexample): on the diamond graph, node 3 is a child of both
node 1 and node 2, and _duplicate_recursive copies it twice — once per
incoming edge — not exactly once, because parent_map is never consulted
before recursing. -/
theorem c6_shared_node_duplicated_twice :
    dupVisits diamondCh 4 0 = some [0, 1, 3, 2, 3] ∧
    ([0, 1, 3, 2, 3] : List Nat).count 3 = 2 ∧
    ¬([0, 1, 3, 2, 3] : List Nat).count 3 = 1 := by
  decide

/-- C6 (amended): whenever the recursion completes within its depth
budget, each node is copied exactly once per distinct root-to-node path —
so a node shared by several parents is duplicated once per incoming path,
never skipped. -/
theorem c6_duplicates_once_per_path :
    ∀ (ch : Nat → List Nat) (fuel v : Nat) (l : List Nat),
      dupVisits ch fuel v = some l →
      ∀ t, l.count t = pathsCount ch fuel v t := by
  intro ch fuel
  induction fuel with
  | zero => intro v l h; simp [dupVisits] at h
  | succ n ih =>
    have hlist : ∀ (cs : List Nat) (m : List Nat),
        dupChList (dupVisits ch n) cs = some m →
        ∀ t, m.count t = (cs.map fun c => pathsCount ch n c t).sum := by
      intro cs
      induction cs with
      | nil =>
        intro m h t
        simp only [dupChList, Option.some.injEq] at h
        subst h
        simp
      | cons c cs ihcs =>
        intro m h t
        simp only [dupChList] at h
        cases ha : dupVisits ch n c with
        | none => rw [ha] at h; simp at h
        | some a =>
          cases hb : dupChList (dupVisits ch n) cs with
          | none => rw [ha, hb] at h; simp at h
          | some b =>
            rw [ha, hb] at h
            simp only [Option.some.injEq] at h
            subst h
            simp [List.count_append, ih c a ha t, ihcs b hb t]
    intro v l h t
    simp only [dupVisits] at h
    cases hc : dupChList (dupVisits ch n) (ch v) with
    | none => rw [hc] at h; simp at h
    | some l2 =>
      rw [hc] at h
      simp only [Option.some.injEq] at h
      subst h
      rw [List.count_cons, hlist (ch v) l2 hc t]
      simp only [pathsCount]
      by_cases hv : v = t
      · simp [hv]; omega
      · simp [hv, Ne.symm hv]

/-- Witness for C6 (amended) at the diamond graph: the recursion
completes and the shared node 3 has two root-to-node paths and is copied
twice. -/
theorem c6_duplicates_once_per_path_witness :
    dupVisits diamondCh 4 0 = some [0, 1, 3, 2, 3] ∧
    ([0, 1, 3, 2, 3] : List Nat).count 3 = pathsCount diamondCh 4 0 3 :=
  ⟨by decide,
   c6_duplicates_once_per_path diamondCh 4 0 [0, 1, 3, 2, 3] (by decide) 3⟩

theorem ensureExclusive_mem_target (scene target : String) (s : Finset String) :
    target ∈ ensureExclusive scene target s := by
  simp only [ensureExclusive]
  split
  · assumption
  · exact Finset.mem_insert_self _ _

theorem ensureExclusive_subset (scene target : String) (s : Finset String) :
    ∀ c ∈ ensureExclusive scene target s, c = scene ∨ c = target := by
  intro c hc
  simp only [ensureExclusive] at hc
  split at hc
  · exact (Finset.mem_filter.mp hc).2
  · rcases Finset.mem_insert.mp hc with rfl | h
    · exact Or.inr rfl
    · exact (Finset.mem_filter.mp h).2

theorem ensureExclusive_fixed (scene target : String) (s : Finset String)
    (hmem : target ∈ s) (hsub : ∀ c ∈ s, c = scene ∨ c = target) :
    ensureExclusive scene target s = s := by
  simp only [ensureExclusive]
  rw [Finset.filter_eq_self.mpr hsub, if_pos hmem]

theorem ensureExclusive_idem (scene target : String) (s : Finset String) :
    ensureExclusive scene target (ensureExclusive scene target s) =
      ensureExclusive scene target s :=
  ensureExclusive_fixed scene target _ (ensureExclusive_mem_target scene target s)
    (ensureExclusive_subset scene target s)

theorem linkFold_apply (scene target : String) :
    ∀ (l : List String) (m : String → Finset String) (o : String),
      l.foldl (fun acc x => Function.update acc x (ensureExclusive scene target (acc x))) m o =
        if o ∈ l then ensureExclusive scene target (m o) else m o := by
  intro l
  induction l with
  | nil => intro m o; simp
  | cons a l ih =>
    intro m o
    rw [List.foldl_cons, ih]
    by_cases hoa : o = a
    · subst hoa
      by_cases hol : o ∈ l
      · simp [hol, Function.update_same, ensureExclusive_idem]
      · simp [hol, Function.update_same]
    · by_cases hol : o ∈ l
      · simp [hol, hoa, Function.update_noteq hoa]
      · simp [hol, hoa, Function.update_noteq hoa]

/-- C7: after linking a hierarchy into a target collection every node of
the hierarchy belongs to the target and to no collection other than the
scene root collection and the target, and running the link a second time
with the same arguments changes nothing. -/
theorem c7_link_exclusive_and_idempotent :
    ∀ (scene target : String) (root : HNode) (m : String → Finset String),
      (∀ o ∈ namesN root,
        target ∈ linkHierarchy scene target root m o ∧
        ∀ c ∈ linkHierarchy scene target root m o, c = scene ∨ c = target) ∧
      linkHierarchy scene target root (linkHierarchy scene target root m) =
        linkHierarchy scene target root m := by
  intro scene target root m
  constructor
  · intro o ho
    unfold linkHierarchy
    rw [linkFold_apply, if_pos ho]
    exact ⟨ensureExclusive_mem_target scene target (m o),
      ensureExclusive_subset scene target (m o)⟩
  · funext o
    unfold linkHierarchy
    rw [linkFold_apply, linkFold_apply]
    by_cases ho : o ∈ namesN root
    · rw [if_pos ho, if_pos ho]
      exact ensureExclusive_idem scene target (m o)
    · rw [if_neg ho, if_neg ho]

/-- Witness for C7 at a two-node hierarchy whose objects start out in
collections S and X. -/
theorem c7_link_exclusive_and_idempotent_witness :
    ("B" ∈ namesN (HNode.node "A" none 0 (.cons (.node "B" none 0 .nil) .nil))) ∧
    "T" ∈ linkHierarchy "S" "T" (HNode.node "A" none 0 (.cons (.node "B" none 0 .nil) .nil))
      (fun _ => {"S", "X"}) "B" ∧
    linkHierarchy "S" "T" (HNode.node "A" none 0 (.cons (.node "B" none 0 .nil) .nil))
        (linkHierarchy "S" "T" (HNode.node "A" none 0 (.cons (.node "B" none 0 .nil) .nil))
          (fun _ => {"S", "X"})) =
      linkHierarchy "S" "T" (HNode.node "A" none 0 (.cons (.node "B" none 0 .nil) .nil))
        (fun _ => {"S", "X"}) :=
  ⟨by decide,
   ((c7_link_exclusive_and_idempotent "S" "T"
      (HNode.node "A" none 0 (.cons (.node "B" none 0 .nil) .nil))
      (fun _ => {"S", "X"})).1 "B" (by decide)).1,
   (c7_link_exclusive_and_idempotent "S" "T"
      (HNode.node "A" none 0 (.cons (.node "B" none 0 .nil) .nil))
      (fun _ => {"S", "X"})).2⟩

end AnimScripts
